import Mathlib

/-!
# dofushunt: localization index and directional clue scanner

A shallow embedding of `types.go` and the properties of its two leaf
components: the language collection (code/name lookups) and the directional
clue scan (ray enumeration, nearest-first result set, result-set accessors,
travel command formatting).

Modelling conventions

* Go `int` values are unbounded `Int`s (the ray arithmetic is read without
  wrap-around), except in the namespace `Machine`, which reads the ray and the
  scan with the wrap-around of a 64-bit `int`.
* A Go `map[K]V` is a `GoMap K V`: an association list read through `get`
  (first binding of a key) and written through `set` (overwrite in place, or
  append a new binding).  Ranging over a map visits every key once, in no
  particular order: `keys` lists the distinct keys.
* Go strings are Lean `String`s; their byte sequence is the UTF-8 encoding.
* Library functions (`strings.ToLower`, `sort.Strings`, `fmt.Sprintf`) are
  modelled by small executable definitions next to the code that calls them.
* The tables `CluesPosMap` and `ClueNamesMap` are not part of `types.go`; they
  are taken as a parameter (`ClueIndex`).
-/

namespace Dofushunt

/-! ## Go maps -/

/-- A Go map as an association list. -/
structure GoMap (K : Type) (V : Type) where
  entries : List (K × V)

namespace GoMap

variable {K V : Type} [DecidableEq K]

/-- First binding of `k` in an association list. -/
def assocGet (k : K) : List (K × V) → Option V
  | [] => none
  | (k', v) :: t => if k' = k then some v else assocGet k t

/-- Overwrite the first binding of `k`, or append a new binding. -/
def assocSet (k : K) (v : V) : List (K × V) → List (K × V)
  | [] => [(k, v)]
  | (k', v') :: t => if k' = k then (k, v) :: t else (k', v') :: assocSet k v t

/-- The value of `make(map[K]V)`. -/
def empty : GoMap K V := ⟨[]⟩

/-- The two-result index expression `v, ok := m[k]`: `none` when `ok` is false. -/
def get (m : GoMap K V) (k : K) : Option V := assocGet k m.entries

/-- The assignment `m[k] = v`. -/
def set (m : GoMap K V) (k : K) (v : V) : GoMap K V := ⟨assocSet k v m.entries⟩

/-- The keys visited by `for k := range m`, each once. -/
def keys (m : GoMap K V) : List K := (m.entries.map Prod.fst).dedup

end GoMap

/-! ## Library functions -/

/-- One byte of the ASCII path of `strings.ToLower`: `'A'..'Z'` move by
`'a' - 'A'`, every other byte is kept. -/
def lowerASCII (c : Char) : Char :=
  if 'A' ≤ c ∧ c ≤ 'Z' then Char.ofNat (c.toNat + ('a'.toNat - 'A'.toNat)) else c

/-- The function `strings.ToLower` on strings whose bytes are all ASCII (the
library's fast path; other strings go through the Unicode tables, which are
not modelled: the general statements below take the lowering function as a
parameter). -/
def ToLower (s : String) : String := String.mk (s.data.map lowerASCII)

/-- The bytes of a string: its UTF-8 encoding. -/
def stringBytes (s : String) : List Nat :=
  s.data.flatMap (fun c => (String.utf8EncodeChar c).map UInt8.toNat)

/-- Byte-wise lexicographic comparison `a <= b`, as Go compares strings. -/
def bytesLe : List Nat → List Nat → Bool
  | [], _ => true
  | _ :: _, [] => false
  | a :: as, b :: bs => decide (a < b) || (decide (a = b) && bytesLe as bs)

/-- String order used by `sort.Strings`. -/
def stringLe (a b : String) : Prop := bytesLe (stringBytes a) (stringBytes b) = true

instance stringLeDecidable : DecidableRel stringLe :=
  fun a b => inferInstanceAs (Decidable (bytesLe (stringBytes a) (stringBytes b) = true))

/-- The result of `sort.Strings`: the ascending rearrangement of the slice. -/
def sortStrings (r : List String) : List String := r.insertionSort stringLe

/-- Digits written by the decimal loop of `fmt`: the last digit is peeled off
while the value is at least 10. The first argument bounds the iterations. -/
def fmtDigits : Nat → Nat → List Char → List Char
  | 0, _, acc => acc
  | fuel + 1, u, acc =>
    if 10 ≤ u then fmtDigits fuel (u / 10) (Char.ofNat ('0'.toNat + u % 10) :: acc)
    else Char.ofNat ('0'.toNat + u) :: acc

/-- The verb `%d` applied to an integer: sign, then decimal digits. -/
def fmtInteger (v : Int) : List Char :=
  if v < 0 then '-' :: fmtDigits (v.natAbs + 1) v.natAbs []
  else fmtDigits (v.natAbs + 1) v.natAbs []

/-- The function `fmt.Sprintf` for formats whose only verb is `%d`, given one
integer operand per verb: text is copied, each `%d` consumes one operand. -/
def sprintfChars : List Char → List Int → List Char
  | [], _ => []
  | '%' :: 'd' :: rest, a :: args => fmtInteger a ++ sprintfChars rest args
  | c :: rest, args => c :: sprintfChars rest args

/-- See `sprintfChars`. -/
def Sprintf (format : String) (args : List Int) : String :=
  String.mk (sprintfChars format.data args)

/-! ## Localization index -/

structure SupportedLanguage where
  countryCode : String
  FriendlyName : String
deriving DecidableEq, Repr

structure SupportedLanguagesCollection where
  supportedLanguages : List SupportedLanguage
  countryCodeNameMap : GoMap String String
  nameCountryCodeMap : GoMap String String
  selectedIndex : Int

/-- The loop `for i := range src { out[i] = field(src[i]) }` run on
`out := make([]string, len(src))`: the slice starts as `len(src)` empty strings
and is written index by index. -/
def fillByIndex (src : List SupportedLanguage) (field : SupportedLanguage → String) :
    List String :=
  (List.range src.length).foldl
    (fun out i =>
      match src[i]? with
      | some l => out.set i (field l)
      | none => out)
    (List.replicate src.length "")

namespace SupportedLanguagesCollection

def SelectedIndex (slc : SupportedLanguagesCollection) : Int := slc.selectedIndex

/-- A missing key reads as the zero value `""`. -/
def CountryCode (toLower : String → String) (slc : SupportedLanguagesCollection)
    (lang : String) : String :=
  (slc.nameCountryCodeMap.get (toLower lang)).getD ""

def Lang (toLower : String → String) (slc : SupportedLanguagesCollection)
    (countryCode : String) : String :=
  (slc.countryCodeNameMap.get (toLower countryCode)).getD ""

def Langs (slc : SupportedLanguagesCollection) : List String :=
  fillByIndex slc.supportedLanguages (fun l => l.FriendlyName)

def CountryCodes (slc : SupportedLanguagesCollection) : List String :=
  fillByIndex slc.supportedLanguages (fun l => l.countryCode)

end SupportedLanguagesCollection

/-- The constructor: both maps are filled in list order, `selectedIndex` is `-1`. -/
def NewSupportedLanguagesCollection (toLower : String → String)
    (languages : List SupportedLanguage) : SupportedLanguagesCollection :=
  { supportedLanguages := languages
    selectedIndex := -1
    countryCodeNameMap :=
      languages.foldl (fun ccnmap lang => ccnmap.set (toLower lang.countryCode) lang.FriendlyName)
        GoMap.empty
    nameCountryCodeMap :=
      languages.foldl (fun nccmap lang => nccmap.set (toLower lang.FriendlyName) lang.countryCode)
        GoMap.empty }

def SupportedLanguages : List SupportedLanguage :=
  [ ⟨"fr", "Francais"⟩, ⟨"en", "English"⟩, ⟨"es", "Espanol"⟩, ⟨"de", "Deutsch"⟩,
    ⟨"pt", "Portugues"⟩ ]

def AppSupportedLanguages : SupportedLanguagesCollection :=
  NewSupportedLanguagesCollection ToLower SupportedLanguages

/-! ## Directional clue scanner -/

structure MapPosition where
  X : Int
  Y : Int
deriving DecidableEq, Repr

abbrev ClueDirection := Int

def ClueDirectionRight : ClueDirection := 0
def ClueDirectionDown : ClueDirection := 1
def ClueDirectionLeft : ClueDirection := 2
def ClueDirectionUp : ClueDirection := 3
def ClueDirectionNone : ClueDirection := 4

def ClueDirection.Arrow (cd : ClueDirection) : String :=
  if cd = ClueDirectionRight then "→"
  else if cd = ClueDirectionDown then "↓"
  else if cd = ClueDirectionLeft then "←"
  else if cd = ClueDirectionUp then "↑"
  else "none"

def ClueDirection.String (cd : ClueDirection) : String :=
  if cd = ClueDirectionRight then "right"
  else if cd = ClueDirectionDown then "down"
  else if cd = ClueDirectionLeft then "left"
  else if cd = ClueDirectionUp then "up"
  else "none"

abbrev ClueResultSet := GoMap String MapPosition

namespace ClueResultSet

def Pois (crs : ClueResultSet) : List String := sortStrings crs.keys

def Pos (crs : ClueResultSet) (p : String) : Except String MapPosition :=
  match crs.get p with
  | none => .error "this clue/poi does not exists in result set"
  | some pos => .ok pos

end ClueResultSet

/-- The tables `CluesPosMap` (X, then Y, to the clue identifiers of the cell)
and `ClueNamesMap` (identifier to display name). -/
structure ClueIndex (Id : Type) where
  CluesPosMap : GoMap Int (GoMap Int (List Id))
  ClueNamesMap : GoMap Id String

namespace MapPosition

def TravelCommand (m : MapPosition) : String := Sprintf "/travel %d %d" [m.X, m.Y]

/-- Indexing the missing inner map (a nil map) reports `ok = false`. -/
def GetClueNames {Id : Type} [DecidableEq Id] (idx : ClueIndex Id) (m : MapPosition) :
    List String :=
  match (idx.CluesPosMap.get m.X).bind (fun row => row.get m.Y) with
  | none => []
  | some clues => clues.foldl (fun names clue => names ++ [(idx.ClueNamesMap.get clue).getD ""]) []

end MapPosition

/-- The loop `for i := 1; i <= limit; i++ { results = append(results, cell i) }`. -/
def rayLoop (cell : Int → MapPosition) (limit : Int) : List MapPosition :=
  (List.range limit.toNat).map (fun (j : Nat) => cell ((j : Int) + 1))

def directedMapPositions (start : MapPosition) (dir : ClueDirection) (limit : Int) :
    List MapPosition :=
  if limit < 1 then []
  else if dir = ClueDirectionRight then rayLoop (fun i => ⟨start.X + i, start.Y⟩) limit
  else if dir = ClueDirectionLeft then rayLoop (fun i => ⟨start.X - i, start.Y⟩) limit
  else if dir = ClueDirectionUp then rayLoop (fun i => ⟨start.X, start.Y - i⟩) limit
  else if dir = ClueDirectionDown then rayLoop (fun i => ⟨start.X, start.Y + i⟩) limit
  else []

/-- The body of the inner loop:
`if _, ok := results[name]; !ok { results[name] = position }`. -/
def recordName (position : MapPosition) (results : ClueResultSet) (name : String) :
    ClueResultSet :=
  match results.get name with
  | none => results.set name position
  | some _ => results

/-- The body of the outer loop: the names of one cell are recorded in order. -/
def recordCell {Id : Type} [DecidableEq Id] (idx : ClueIndex Id) (results : ClueResultSet)
    (position : MapPosition) : ClueResultSet :=
  (position.GetClueNames idx).foldl (recordName position) results

def getClueResultSet {Id : Type} [DecidableEq Id] (idx : ClueIndex Id) (start : MapPosition)
    (dir : ClueDirection) (limit : Int) : ClueResultSet :=
  (directedMapPositions start dir limit).foldl (recordCell idx) GoMap.empty

namespace MapPosition

def DirectedMapPositionsSet (m : MapPosition) (dir : ClueDirection) : List MapPosition :=
  directedMapPositions m dir 10

def FindNextClue {Id : Type} [DecidableEq Id] (idx : ClueIndex Id) (m : MapPosition)
    (dir : ClueDirection) : ClueResultSet :=
  getClueResultSet idx m dir 10

end MapPosition

/-! ## The scan with 64-bit integers -/

/-- Two's-complement wrap-around of a 64-bit `int`: the value stored for the
mathematical result `v` of an addition or subtraction. -/
def wrapInt (v : Int) : Int := (v + 2 ^ 63) % 2 ^ 64 - 2 ^ 63

namespace Machine

/-- The function `directedMapPositions` with the coordinate sums wrapped to 64
bits. The loop counter runs from 1 to `limit` and does not wrap for a limit
below the largest `int`. -/
def directedMapPositions (start : MapPosition) (dir : ClueDirection) (limit : Int) :
    List MapPosition :=
  if limit < 1 then []
  else if dir = ClueDirectionRight then
    rayLoop (fun i => ⟨wrapInt (start.X + i), start.Y⟩) limit
  else if dir = ClueDirectionLeft then
    rayLoop (fun i => ⟨wrapInt (start.X - i), start.Y⟩) limit
  else if dir = ClueDirectionUp then
    rayLoop (fun i => ⟨start.X, wrapInt (start.Y - i)⟩) limit
  else if dir = ClueDirectionDown then
    rayLoop (fun i => ⟨start.X, wrapInt (start.Y + i)⟩) limit
  else []

def getClueResultSet {Id : Type} [DecidableEq Id] (idx : ClueIndex Id) (start : MapPosition)
    (dir : ClueDirection) (limit : Int) : ClueResultSet :=
  (Machine.directedMapPositions start dir limit).foldl (recordCell idx) GoMap.empty

def DirectedMapPositionsSet (m : MapPosition) (dir : ClueDirection) : List MapPosition :=
  Machine.directedMapPositions m dir 10

def FindNextClue {Id : Type} [DecidableEq Id] (idx : ClueIndex Id) (m : MapPosition)
    (dir : ClueDirection) : ClueResultSet :=
  Machine.getClueResultSet idx m dir 10

end Machine

/-! ## Specification-side vocabulary -/

/-- The cell `i` steps from `start` along a cardinal direction, in the words of
the specification: right `X+i`, left `X-i`, down `Y+i`, up `Y-i`. -/
def stepAlong (start : MapPosition) (d : ClueDirection) (i : Int) : MapPosition :=
  if d = ClueDirectionRight then ⟨start.X + i, start.Y⟩
  else if d = ClueDirectionLeft then ⟨start.X - i, start.Y⟩
  else if d = ClueDirectionDown then ⟨start.X, start.Y + i⟩
  else ⟨start.X, start.Y - i⟩

/-- Chebyshev distance between two cells. -/
def chebyshev (p q : MapPosition) : Int := max |p.X - q.X| |p.Y - q.Y|

/-- The character of a decimal digit. -/
def digitChar (d : Nat) : Char := Char.ofNat ('0'.toNat + d)

/-- Plain decimal representation of a natural number: its base-10 digits, most
significant first, `0` for zero. -/
def decimalNat (n : Nat) : List Char :=
  if n = 0 then ['0'] else ((Nat.digits 10 n).reverse).map digitChar

/-- Plain decimal representation of an integer: `-` before the digits of a
negative value, no padding, no separators. -/
def decimalInt (v : Int) : List Char :=
  if v < 0 then '-' :: decimalNat v.natAbs else decimalNat v.natAbs

/-- See `decimalInt`. -/
def decimalString (v : Int) : String := String.mk (decimalInt v)

/-- A value of a 64-bit `int`. -/
def fitsInt (v : Int) : Prop := -2 ^ 63 ≤ v ∧ v < 2 ^ 63

/-- The ten steps from `m` along `d` stay within 64-bit integers: `m` itself
and the tenth cell have coordinates that fit. -/
def noOverflow (m : MapPosition) (d : ClueDirection) : Prop :=
  fitsInt m.X ∧ fitsInt m.Y ∧ fitsInt (stepAlong m d 10).X ∧ fitsInt (stepAlong m d 10).Y

/-- A blank placeholder: a string that is empty or made of whitespace only. -/
def isBlank (s : String) : Bool := s.data.all Char.isWhitespace

/-- The four arrow glyphs. -/
def arrowGlyphs : List Char := ['→', '↓', '←', '↑']

/-! ## Sample data -/

/-- A small clue index: clue 1 ("Bronze Key") lies on the cells (3, 0) and
(7, 0), clue 2 ("Ancient Urn") on (7, 0) only. -/
def sampleIndex : ClueIndex Nat :=
  { CluesPosMap := ⟨[(3, ⟨[(0, [1])]⟩), (7, ⟨[(0, [1, 2])]⟩)]⟩
    ClueNamesMap := ⟨[(1, "Bronze Key"), (2, "Ancient Urn")]⟩ }

/-- A clue index whose only clue lies on the cell with the least 64-bit `X`. -/
def edgeIndex : ClueIndex Nat :=
  { CluesPosMap := ⟨[(-9223372036854775808, ⟨[(0, [1])]⟩)]⟩
    ClueNamesMap := ⟨[(1, "Bronze Key")]⟩ }

/-- An entry list with a repeated code (up to case) and a repeated name. -/
def duplicateLanguages : List SupportedLanguage :=
  [ ⟨"fr", "Francais"⟩, ⟨"FR", "French"⟩, ⟨"en", "English"⟩, ⟨"gb", "ENGLISH"⟩ ]

/-! ## Go maps: lookup after update -/

namespace GoMap

variable {K V : Type} [DecidableEq K]

theorem assocGet_assocSet_self (k : K) (v : V) (l : List (K × V)) :
    assocGet k (assocSet k v l) = some v := by
  induction l with
  | nil => simp [assocSet, assocGet]
  | cons hd t ih =>
    obtain ⟨a, b⟩ := hd
    by_cases h : a = k
    · simp [assocSet, assocGet, h]
    · simp [assocSet, assocGet, h, ih]

theorem assocGet_assocSet_of_ne {k k' : K} (h : k' ≠ k) (v : V) (l : List (K × V)) :
    assocGet k' (assocSet k v l) = assocGet k' l := by
  induction l with
  | nil => simp [assocSet, assocGet, Ne.symm h]
  | cons hd t ih =>
    obtain ⟨a, b⟩ := hd
    by_cases ha : a = k
    · subst ha
      simp [assocSet, assocGet, Ne.symm h]
    · by_cases hb : a = k'
      · subst hb
        simp [assocSet, assocGet, ha]
      · simp [assocSet, assocGet, ha, hb, ih]

theorem assocGet_eq_none_iff (k : K) (l : List (K × V)) :
    assocGet k l = none ↔ k ∉ l.map Prod.fst := by
  induction l with
  | nil => simp [assocGet]
  | cons hd t ih =>
    obtain ⟨a, b⟩ := hd
    by_cases h : a = k
    · simp [assocGet, h]
    · simp [assocGet, h, ih, Ne.symm h]

theorem get_empty (k : K) : (empty : GoMap K V).get k = none := rfl

theorem get_set_self (m : GoMap K V) (k : K) (v : V) : (m.set k v).get k = some v :=
  assocGet_assocSet_self k v m.entries

theorem get_set_of_ne (m : GoMap K V) {k k' : K} (h : k' ≠ k) (v : V) :
    (m.set k v).get k' = m.get k' :=
  assocGet_assocSet_of_ne h v m.entries

theorem get_eq_none_iff (m : GoMap K V) (k : K) : m.get k = none ↔ k ∉ m.keys := by
  simp [get, keys, assocGet_eq_none_iff]

theorem mem_keys_iff (m : GoMap K V) (k : K) : k ∈ m.keys ↔ ∃ v, m.get k = some v := by
  have h := get_eq_none_iff m k
  cases hg : m.get k <;> simpa [hg] using h

theorem nodup_keys (m : GoMap K V) : m.keys.Nodup := List.nodup_dedup _

/-- Filling a map from a list, later entries overwriting earlier ones: a key
reads as the value of the last entry that carries it. -/
theorem get_foldl_set {α : Type} (f : α → K) (g : α → V) (l : List α) (m : GoMap K V)
    (k : K) :
    (l.foldl (fun acc e => acc.set (f e) (g e)) m).get k =
      match l.reverse.find? (fun e => decide (f e = k)) with
      | some e => some (g e)
      | none => m.get k := by
  induction l generalizing m with
  | nil => rfl
  | cons x t ih =>
    rw [List.foldl_cons, ih, List.reverse_cons, List.find?_append]
    cases h : t.reverse.find? (fun e => decide (f e = k)) with
    | some e => simp
    | none =>
      by_cases hx : f x = k
      · simp [hx, get_set_self]
      · simp [hx, get_set_of_ne _ (Ne.symm hx)]

end GoMap

/-! ## Byte order -/

theorem bytesLe_total (a b : List Nat) : bytesLe a b = true ∨ bytesLe b a = true := by
  induction a generalizing b with
  | nil => simp [bytesLe]
  | cons x xs ih =>
    cases b with
    | nil => simp [bytesLe]
    | cons y ys =>
      simp only [bytesLe, Bool.or_eq_true, Bool.and_eq_true, decide_eq_true_eq]
      rcases Nat.lt_trichotomy x y with h | h | h
      · exact Or.inl (Or.inl h)
      · rcases ih ys with h' | h'
        · exact Or.inl (Or.inr ⟨h, h'⟩)
        · exact Or.inr (Or.inr ⟨h.symm, h'⟩)
      · exact Or.inr (Or.inl h)

theorem bytesLe_trans (a b c : List Nat) (hab : bytesLe a b = true) (hbc : bytesLe b c = true) :
    bytesLe a c = true := by
  induction a generalizing b c with
  | nil => simp [bytesLe]
  | cons x xs ih =>
    cases b with
    | nil => simp [bytesLe] at hab
    | cons y ys =>
      cases c with
      | nil => simp [bytesLe] at hbc
      | cons z zs =>
        simp only [bytesLe, Bool.or_eq_true, Bool.and_eq_true, decide_eq_true_eq] at hab hbc ⊢
        rcases hab with h1 | ⟨h1, h1'⟩
        · rcases hbc with h2 | ⟨h2, _⟩
          · exact Or.inl (lt_trans h1 h2)
          · exact Or.inl (h2 ▸ h1)
        · rcases hbc with h2 | ⟨h2, h2'⟩
          · exact Or.inl (h1 ▸ h2)
          · exact Or.inr ⟨h1.trans h2, ih ys zs h1' h2'⟩

instance stringLe_isTotal : IsTotal String stringLe :=
  ⟨fun a b => bytesLe_total (stringBytes a) (stringBytes b)⟩

instance stringLe_isTrans : IsTrans String stringLe :=
  ⟨fun a b c => bytesLe_trans (stringBytes a) (stringBytes b) (stringBytes c)⟩

/-! ## Result-set accessors -/

/-- C5: `Pos` fails exactly on the names that are not keys of the result set,
and on a key it succeeds with the position recorded for it. -/
theorem Pos_error_iff_not_key (crs : ClueResultSet) (p : String) :
    ((∃ e, crs.Pos p = Except.error e) ↔ p ∉ crs.keys) ∧
    (p ∈ crs.keys → ∃ pos, crs.get p = some pos ∧ crs.Pos p = Except.ok pos) ∧
    (∀ pos, crs.get p = some pos → crs.Pos p = Except.ok pos) := by
  refine ⟨?_, ?_, ?_⟩
  · rw [← GoMap.get_eq_none_iff]
    cases h : crs.get p <;> simp [ClueResultSet.Pos, h]
  · intro hk
    obtain ⟨pos, hpos⟩ := (GoMap.mem_keys_iff crs p).1 hk
    exact ⟨pos, hpos, by simp [ClueResultSet.Pos, hpos]⟩
  · intro pos hpos
    simp [ClueResultSet.Pos, hpos]

/-- C6: `Pois` is ascending in byte-wise string order and lists exactly the
keys of the result set, each once; on the keys "Bronze Key" and "Ancient Urn"
it is "Ancient Urn", "Bronze Key". -/
theorem Pois_sorted_keys (crs : ClueResultSet) :
    List.Sorted stringLe crs.Pois ∧ crs.Pois.Nodup ∧ crs.Pois.Perm crs.keys ∧
    (∀ k, k ∈ crs.Pois ↔ ∃ pos, crs.get k = some pos) ∧
    (∀ p q : MapPosition,
      ClueResultSet.Pois ((GoMap.empty.set "Bronze Key" p).set "Ancient Urn" q) =
        ["Ancient Urn", "Bronze Key"] ∧
      ClueResultSet.Pois ((GoMap.empty.set "Ancient Urn" q).set "Bronze Key" p) =
        ["Ancient Urn", "Bronze Key"]) := by
  have hperm : crs.Pois.Perm crs.keys := List.perm_insertionSort stringLe crs.keys
  refine ⟨List.sorted_insertionSort stringLe crs.keys, ?_, hperm, ?_, ?_⟩
  · exact hperm.nodup_iff.2 (GoMap.nodup_keys crs)
  · intro k
    rw [hperm.mem_iff, GoMap.mem_keys_iff]
  · intro p q
    exact ⟨rfl, rfl⟩

/-! ## Ray enumeration -/

theorem length_rayLoop (cell : Int → MapPosition) (limit : Int) :
    (rayLoop cell limit).length = limit.toNat := by
  simp [rayLoop]

theorem getElem?_rayLoop (cell : Int → MapPosition) (limit : Int) (j : Nat)
    (hj : j < limit.toNat) : (rayLoop cell limit)[j]? = some (cell ((j : Int) + 1)) := by
  simp [rayLoop, List.getElem?_map, List.getElem?_range hj]

theorem mem_rayLoop (cell : Int → MapPosition) (limit : Int) (p : MapPosition) :
    p ∈ rayLoop cell limit ↔ ∃ j : Nat, j < limit.toNat ∧ cell ((j : Int) + 1) = p := by
  simp [rayLoop]

theorem directedMapPositions_eq_rayLoop (start : MapPosition) (d : ClueDirection) (L : Int)
    (hd : d = ClueDirectionRight ∨ d = ClueDirectionDown ∨ d = ClueDirectionLeft ∨
      d = ClueDirectionUp)
    (hL : 1 ≤ L) : directedMapPositions start d L = rayLoop (stepAlong start d) L := by
  have hL' : ¬ L < 1 := not_lt.mpr hL
  have hstep : ∀ c : ClueDirection, stepAlong start c = fun i => stepAlong start c i :=
    fun _ => rfl
  rcases hd with h | h | h | h <;> subst h <;> rw [hstep] <;>
    simp [directedMapPositions, stepAlong, hL', ClueDirectionRight, ClueDirectionDown,
      ClueDirectionLeft, ClueDirectionUp]

theorem chebyshev_stepAlong (start : MapPosition) (d : ClueDirection) (i : Int) :
    chebyshev start (stepAlong start d i) = |i| := by
  unfold chebyshev stepAlong
  split_ifs <;> simp [abs_nonneg]

/-- C2: for a cardinal direction and a limit `L` of at least 1 the ray has
exactly `L` cells, its `i`-th cell (counted from 1) is `start` moved `i` steps
along the direction, at Chebyshev distance exactly `i`; the distance strictly
increases along the ray and `start` is not on it. -/
theorem directedMapPositions_ray (start : MapPosition) (d : ClueDirection) (L : Int)
    (hd : d = ClueDirectionRight ∨ d = ClueDirectionDown ∨ d = ClueDirectionLeft ∨
      d = ClueDirectionUp)
    (hL : 1 ≤ L) :
    ((directedMapPositions start d L).length : Int) = L ∧
    (∀ i : Nat, 1 ≤ i → (i : Int) ≤ L →
      (directedMapPositions start d L)[i - 1]? = some (stepAlong start d i) ∧
      chebyshev start (stepAlong start d i) = i) ∧
    List.Pairwise (fun p q => chebyshev start p < chebyshev start q)
      (directedMapPositions start d L) ∧
    start ∉ directedMapPositions start d L := by
  rw [directedMapPositions_eq_rayLoop start d L hd hL]
  refine ⟨?_, ?_, ?_, ?_⟩
  · rw [length_rayLoop]
    omega
  · intro i hi hiL
    constructor
    · rw [getElem?_rayLoop _ _ _ (by omega)]
      congr 2
      omega
    · rw [chebyshev_stepAlong]
      simp
  · unfold rayLoop
    rw [List.pairwise_map]
    refine (List.pairwise_lt_range _).imp ?_
    intro a b hab
    rw [chebyshev_stepAlong, chebyshev_stepAlong, abs_of_nonneg (by omega),
      abs_of_nonneg (by omega)]
    omega
  · intro hmem
    obtain ⟨j, _, hj⟩ := (mem_rayLoop _ _ _).1 hmem
    have h := chebyshev_stepAlong start d ((j : Int) + 1)
    rw [hj, abs_of_nonneg (by omega)] at h
    simp [chebyshev] at h
    omega

theorem directedMapPositions_ray_witness :
    ((directedMapPositions ⟨5, -2⟩ ClueDirectionLeft 3).length : Int) = 3 ∧
    (∀ i : Nat, 1 ≤ i → (i : Int) ≤ 3 →
      (directedMapPositions ⟨5, -2⟩ ClueDirectionLeft 3)[i - 1]? =
        some (stepAlong ⟨5, -2⟩ ClueDirectionLeft i) ∧
      chebyshev ⟨5, -2⟩ (stepAlong ⟨5, -2⟩ ClueDirectionLeft i) = i) ∧
    List.Pairwise (fun p q => chebyshev ⟨5, -2⟩ p < chebyshev ⟨5, -2⟩ q)
      (directedMapPositions ⟨5, -2⟩ ClueDirectionLeft 3) ∧
    (⟨5, -2⟩ : MapPosition) ∉ directedMapPositions ⟨5, -2⟩ ClueDirectionLeft 3 :=
  directedMapPositions_ray ⟨5, -2⟩ ClueDirectionLeft 3 (Or.inr (Or.inr (Or.inl rfl)))
    (by decide)

/-- C3: the ray is empty when the limit is at most 0, whatever the direction,
and when the direction is none of the four cardinal constants (in particular
`ClueDirectionNone`), whatever the limit. -/
theorem directedMapPositions_empty (start : MapPosition) (dir : ClueDirection) (limit : Int)
    (h : limit ≤ 0 ∨ dir = ClueDirectionNone ∨
      (dir ≠ ClueDirectionRight ∧ dir ≠ ClueDirectionDown ∧ dir ≠ ClueDirectionLeft ∧
        dir ≠ ClueDirectionUp)) :
    directedMapPositions start dir limit = [] := by
  unfold directedMapPositions
  rcases h with h | h | ⟨h1, h2, h3, h4⟩
  · rw [if_pos (by omega)]
  · subst h
    simp [ClueDirectionNone, ClueDirectionRight, ClueDirectionDown, ClueDirectionLeft,
      ClueDirectionUp]
  · simp [h1, h2, h3, h4]

theorem directedMapPositions_empty_witness :
    directedMapPositions ⟨1, 1⟩ ClueDirectionRight 0 = [] ∧
    directedMapPositions ⟨1, 1⟩ ClueDirectionDown (-3) = [] ∧
    directedMapPositions ⟨1, 1⟩ ClueDirectionNone 10 = [] ∧
    directedMapPositions ⟨1, 1⟩ 7 10 = [] ∧
    directedMapPositions ⟨1, 1⟩ (-1) 10 = [] :=
  ⟨directedMapPositions_empty _ _ _ (Or.inl (by decide)),
   directedMapPositions_empty _ _ _ (Or.inl (by decide)),
   directedMapPositions_empty _ _ _ (Or.inr (Or.inl rfl)),
   directedMapPositions_empty _ _ _ (Or.inr (Or.inr (by decide))),
   directedMapPositions_empty _ _ _ (Or.inr (Or.inr (by decide)))⟩

/-! ## Scan -/

theorem get_recordName (position : MapPosition) (results : ClueResultSet) (name k : String) :
    (recordName position results name).get k =
      match results.get k with
      | some v => some v
      | none => if name = k then some position else none := by
  unfold recordName
  by_cases hk : name = k
  · subst hk
    cases h : results.get name <;> simp [GoMap.get_set_self, h]
  · cases h : results.get name with
    | none =>
      simp only [GoMap.get_set_of_ne results (Ne.symm hk), if_neg hk]
      cases results.get k <;> rfl
    | some w =>
      simp only [if_neg hk]
      cases results.get k <;> rfl

theorem get_foldl_recordName (position : MapPosition) (names : List String)
    (results : ClueResultSet) (k : String) :
    (names.foldl (recordName position) results).get k =
      match results.get k with
      | some v => some v
      | none => if k ∈ names then some position else none := by
  induction names generalizing results with
  | nil => cases h : results.get k <;> simp [h]
  | cons n t ih =>
    rw [List.foldl_cons, ih, get_recordName]
    cases results.get k with
    | some v => rfl
    | none =>
      by_cases hn : n = k
      · simp [hn]
      · simp [hn, Ne.symm hn]

theorem get_foldl_recordCell {Id : Type} [DecidableEq Id] (idx : ClueIndex Id)
    (cells : List MapPosition) (results : ClueResultSet) (k : String) :
    (cells.foldl (recordCell idx) results).get k =
      match results.get k with
      | some v => some v
      | none => cells.find? (fun c => decide (k ∈ c.GetClueNames idx)) := by
  induction cells generalizing results with
  | nil => cases h : results.get k <;> simp [h]
  | cons c t ih =>
    rw [List.foldl_cons, ih]
    unfold recordCell
    rw [get_foldl_recordName]
    cases results.get k with
    | some v => rfl
    | none =>
      by_cases hc : k ∈ c.GetClueNames idx
      · simp [hc]
      · simp [hc]

/-- The position recorded for a name is the first cell of the ray that has it. -/
theorem get_getClueResultSet {Id : Type} [DecidableEq Id] (idx : ClueIndex Id)
    (start : MapPosition) (dir : ClueDirection) (limit : Int) (k : String) :
    (getClueResultSet idx start dir limit).get k =
      (directedMapPositions start dir limit).find?
        (fun c => decide (k ∈ c.GetClueNames idx)) := by
  unfold getClueResultSet
  rw [get_foldl_recordCell, GoMap.get_empty]

theorem find?_eq_some_index {α : Type} (q : α → Bool) (l : List α) (a : α)
    (h : l.find? q = some a) :
    ∃ i : Nat, l[i]? = some a ∧ q a = true ∧
      ∀ j : Nat, j < i → ∀ c, l[j]? = some c → q c = false := by
  induction l with
  | nil => simp at h
  | cons x t ih =>
    by_cases hx : q x = true
    · rw [List.find?_cons_of_pos _ hx] at h
      cases h
      exact ⟨0, by simp, hx, fun j hj => absurd hj (Nat.not_lt_zero j)⟩
    · rw [List.find?_cons_of_neg _ hx] at h
      obtain ⟨i, hi, hq, hlt⟩ := ih h
      refine ⟨i + 1, by simpa using hi, hq, ?_⟩
      intro j hj c hc
      cases j with
      | zero =>
        simp at hc
        subst hc
        simpa using hx
      | succ j => exact hlt j (by omega) c (by simpa using hc)

theorem find?_eq_some_of_index {α : Type} (q : α → Bool) (l : List α) (a : α) (i : Nat)
    (hi : l[i]? = some a) (hq : q a = true)
    (hlt : ∀ j : Nat, j < i → ∀ c, l[j]? = some c → q c = false) : l.find? q = some a := by
  induction l generalizing i with
  | nil => simp at hi
  | cons x t ih =>
    cases i with
    | zero =>
      simp at hi
      subst hi
      rw [List.find?_cons_of_pos _ hq]
    | succ i =>
      have hx : ¬ q x = true := by
        have := hlt 0 (by omega) x (by simp)
        simp [this]
      rw [List.find?_cons_of_neg _ hx]
      exact ih i (by simpa using hi) (fun j hj c hc => hlt (j + 1) (by omega) c (by simpa using hc))

/-- C1: nearest wins. A name recorded by the scan is recorded at the first cell
of the ray (lowest index, smallest distance) whose clue names contain it; and a
name found on a cell and on no earlier cell of the ray is recorded at that
cell, whatever lies farther away. -/
theorem getClueResultSet_nearest_wins {Id : Type} [DecidableEq Id] (idx : ClueIndex Id)
    (start : MapPosition) (dir : ClueDirection) (limit : Int) (name : String) :
    (∀ p, (getClueResultSet idx start dir limit).get name = some p →
      ∃ i : Nat, (directedMapPositions start dir limit)[i]? = some p ∧
        name ∈ p.GetClueNames idx ∧
        ∀ j : Nat, j < i → ∀ c, (directedMapPositions start dir limit)[j]? = some c →
          name ∉ c.GetClueNames idx) ∧
    (∀ (i : Nat) (p : MapPosition), (directedMapPositions start dir limit)[i]? = some p →
      name ∈ p.GetClueNames idx →
      (∀ j : Nat, j < i → ∀ c, (directedMapPositions start dir limit)[j]? = some c →
        name ∉ c.GetClueNames idx) →
      (getClueResultSet idx start dir limit).get name = some p) := by
  constructor
  · intro p hp
    rw [get_getClueResultSet] at hp
    obtain ⟨i, hi, hq, hlt⟩ := find?_eq_some_index _ _ _ hp
    refine ⟨i, hi, by simpa using hq, ?_⟩
    intro j hj c hc
    simpa using hlt j hj c hc
  · intro i p hi hq hlt
    rw [get_getClueResultSet]
    refine find?_eq_some_of_index _ _ p i hi (by simpa using hq) ?_
    intro j hj c hc
    simpa using hlt j hj c hc

theorem getClueResultSet_nearest_wins_witness :
    "Bronze Key" ∈ (MapPosition.mk 3 0).GetClueNames sampleIndex ∧
    "Bronze Key" ∈ (MapPosition.mk 7 0).GetClueNames sampleIndex ∧
    (getClueResultSet sampleIndex ⟨0, 0⟩ ClueDirectionRight 10).get "Bronze Key" =
      some ⟨3, 0⟩ := by
  have hcells : directedMapPositions ⟨0, 0⟩ ClueDirectionRight 10 =
      [⟨1, 0⟩, ⟨2, 0⟩, ⟨3, 0⟩, ⟨4, 0⟩, ⟨5, 0⟩, ⟨6, 0⟩, ⟨7, 0⟩, ⟨8, 0⟩, ⟨9, 0⟩, ⟨10, 0⟩] := by
    decide
  refine ⟨by decide, by decide, ?_⟩
  refine (getClueResultSet_nearest_wins sampleIndex ⟨0, 0⟩ ClueDirectionRight 10
    "Bronze Key").2 2 ⟨3, 0⟩ (by rw [hcells]; rfl) (by decide) ?_
  intro j hj c hc
  rw [hcells] at hc
  have hj' : j = 0 ∨ j = 1 := by omega
  rcases hj' with h | h <;> subst h <;> simp at hc <;> subst hc <;> decide

/-- C4: the names recorded by the scan are exactly the names that the clue
index reports on at least one cell of the ray. -/
theorem getClueResultSet_keys {Id : Type} [DecidableEq Id] (idx : ClueIndex Id)
    (start : MapPosition) (dir : ClueDirection) (limit : Int) (name : String) :
    name ∈ (getClueResultSet idx start dir limit).keys ↔
      ∃ c, c ∈ directedMapPositions start dir limit ∧ name ∈ c.GetClueNames idx := by
  rw [GoMap.mem_keys_iff, get_getClueResultSet, ← Option.isSome_iff_exists, List.find?_isSome]
  simp

/-! ## Localization index -/

theorem Lang_New (toLower : String → String) (L : List SupportedLanguage) (c : String) :
    (NewSupportedLanguagesCollection toLower L).Lang toLower c =
      match L.reverse.find? (fun e => decide (toLower e.countryCode = toLower c)) with
      | some e => e.FriendlyName
      | none => "" := by
  unfold SupportedLanguagesCollection.Lang NewSupportedLanguagesCollection
  simp only
  rw [GoMap.get_foldl_set (fun e : SupportedLanguage => toLower e.countryCode)
    (fun e : SupportedLanguage => e.FriendlyName)]
  cases L.reverse.find? (fun e => decide (toLower e.countryCode = toLower c)) <;> rfl

theorem CountryCode_New (toLower : String → String) (L : List SupportedLanguage) (n : String) :
    (NewSupportedLanguagesCollection toLower L).CountryCode toLower n =
      match L.reverse.find? (fun e => decide (toLower e.FriendlyName = toLower n)) with
      | some e => e.countryCode
      | none => "" := by
  unfold SupportedLanguagesCollection.CountryCode NewSupportedLanguagesCollection
  simp only
  rw [GoMap.get_foldl_set (fun e : SupportedLanguage => toLower e.FriendlyName)
    (fun e : SupportedLanguage => e.countryCode)]
  cases L.reverse.find? (fun e => decide (toLower e.FriendlyName = toLower n)) <;> rfl

/-- C7: round trip on the static list. For every entry of `SupportedLanguages`,
looking the code up and then the resulting name gives the code back, and
looking the name up and then the resulting code gives the name back. -/
theorem static_round_trip (e : SupportedLanguage) (he : e ∈ SupportedLanguages) :
    AppSupportedLanguages.CountryCode ToLower (AppSupportedLanguages.Lang ToLower e.countryCode) =
      e.countryCode ∧
    AppSupportedLanguages.Lang ToLower (AppSupportedLanguages.CountryCode ToLower e.FriendlyName) =
      e.FriendlyName := by
  revert e
  decide

theorem static_round_trip_witness :
    AppSupportedLanguages.CountryCode ToLower (AppSupportedLanguages.Lang ToLower "de") = "de" ∧
    AppSupportedLanguages.Lang ToLower (AppSupportedLanguages.CountryCode ToLower "Deutsch") =
      "Deutsch" :=
  static_round_trip ⟨"de", "Deutsch"⟩ (by decide)

/-- C8: lookups are case-insensitive. On a collection built by the constructor,
two strings with the same lowercase form give the same `Lang` and the same
`CountryCode`; on the static list `Lang` of "FR" and of "fr" are both
"Francais". -/
theorem lookup_case_insensitive (toLower : String → String) (L : List SupportedLanguage)
    (a b : String) :
    (toLower a = toLower b →
      (NewSupportedLanguagesCollection toLower L).Lang toLower a =
        (NewSupportedLanguagesCollection toLower L).Lang toLower b ∧
      (NewSupportedLanguagesCollection toLower L).CountryCode toLower a =
        (NewSupportedLanguagesCollection toLower L).CountryCode toLower b) ∧
    AppSupportedLanguages.Lang ToLower "FR" = "Francais" ∧
    AppSupportedLanguages.Lang ToLower "fr" = "Francais" := by
  refine ⟨?_, by decide, by decide⟩
  intro h
  unfold SupportedLanguagesCollection.Lang SupportedLanguagesCollection.CountryCode
  rw [h]
  exact ⟨rfl, rfl⟩

theorem lookup_case_insensitive_witness :
    ToLower "EnGlIsH" = ToLower "english" ∧
    AppSupportedLanguages.CountryCode ToLower "EnGlIsH" =
      AppSupportedLanguages.CountryCode ToLower "english" ∧
    AppSupportedLanguages.CountryCode ToLower "EnGlIsH" = "en" :=
  ⟨by decide,
   ((lookup_case_insensitive ToLower SupportedLanguages "EnGlIsH" "english").1 (by decide)).2,
   by decide⟩

/-- C9: lookup misses return the empty string. On a collection built by the
constructor, `CountryCode` is "" when no entry has the lowercased friendly
name asked for, and `Lang` is "" when no entry has the lowercased code asked
for; on the static list `CountryCode` of "english" is "en" and of "klingon"
is "". -/
theorem lookup_miss_empty (toLower : String → String) (L : List SupportedLanguage) :
    (∀ n, (∀ e, e ∈ L → toLower e.FriendlyName ≠ toLower n) →
      (NewSupportedLanguagesCollection toLower L).CountryCode toLower n = "") ∧
    (∀ c, (∀ e, e ∈ L → toLower e.countryCode ≠ toLower c) →
      (NewSupportedLanguagesCollection toLower L).Lang toLower c = "") ∧
    AppSupportedLanguages.CountryCode ToLower "english" = "en" ∧
    AppSupportedLanguages.CountryCode ToLower "klingon" = "" := by
  refine ⟨?_, ?_, by decide, by decide⟩
  · intro n hn
    have hnone : L.reverse.find? (fun e => decide (toLower e.FriendlyName = toLower n)) = none := by
      rw [List.find?_eq_none]
      intro e he
      simpa using hn e (List.mem_reverse.1 he)
    rw [CountryCode_New, hnone]
  · intro c hc
    have hnone : L.reverse.find? (fun e => decide (toLower e.countryCode = toLower c)) = none := by
      rw [List.find?_eq_none]
      intro e he
      simpa using hc e (List.mem_reverse.1 he)
    rw [Lang_New, hnone]

theorem lookup_miss_empty_witness :
    AppSupportedLanguages.CountryCode ToLower "Klingon" = "" ∧
    AppSupportedLanguages.Lang ToLower "tlh" = "" :=
  ⟨(lookup_miss_empty ToLower SupportedLanguages).1 "Klingon" (by decide),
   (lookup_miss_empty ToLower SupportedLanguages).2.1 "tlh" (by decide)⟩

/-! ## Travel command -/

theorem decimalNat_of_lt_ten (u : Nat) (hu : u < 10) : decimalNat u = [digitChar u] := by
  unfold decimalNat
  by_cases h0 : u = 0
  · subst h0
    rfl
  · rw [if_neg h0, Nat.digits_of_lt 10 u h0 hu]
    rfl

theorem decimalNat_of_ten_le (u : Nat) (hu : 10 ≤ u) :
    decimalNat u = decimalNat (u / 10) ++ [digitChar (u % 10)] := by
  have h0 : u ≠ 0 := by omega
  have h1 : u / 10 ≠ 0 := by omega
  unfold decimalNat
  rw [if_neg h0, if_neg h1, Nat.digits_def' (by norm_num) (by omega)]
  simp

theorem fmtDigits_eq (fuel u : Nat) (acc : List Char) (h : u < fuel) :
    fmtDigits fuel u acc = decimalNat u ++ acc := by
  induction fuel generalizing u acc with
  | zero => omega
  | succ fuel ih =>
    unfold fmtDigits
    by_cases hu : 10 ≤ u
    · rw [if_pos hu, ih (u / 10) _ (by omega), decimalNat_of_ten_le u hu]
      simp [digitChar]
    · rw [if_neg hu, decimalNat_of_lt_ten u (by omega)]
      rfl

theorem fmtInteger_eq (v : Int) : fmtInteger v = decimalInt v := by
  unfold fmtInteger decimalInt
  rw [fmtDigits_eq _ _ _ (Nat.lt_succ_self _)]
  simp

/-- C10: the travel command of a position is "/travel ", the plain decimal
representation of X, one space, and the plain decimal representation of Y;
for (12, -4) it is "/travel 12 -4". -/
theorem TravelCommand_format (m : MapPosition) :
    m.TravelCommand = "/travel " ++ decimalString m.X ++ " " ++ decimalString m.Y ∧
    (MapPosition.mk 12 (-4)).TravelCommand = "/travel 12 -4" := by
  refine ⟨?_, by decide⟩
  have h : sprintfChars "/travel %d %d".data [m.X, m.Y] =
      "/travel ".data ++ (fmtInteger m.X ++ (' ' :: fmtInteger m.Y)) := by
    simp [sprintfChars]
  unfold MapPosition.TravelCommand Sprintf decimalString
  rw [h, fmtInteger_eq, fmtInteger_eq]
  apply String.ext
  simp

/-! ## Entry lists, selection, direction display -/

theorem foldl_fill_upto (src : List SupportedLanguage) (field : SupportedLanguage → String)
    (k : Nat) (hk : k ≤ src.length) :
    (List.range k).foldl
      (fun out i =>
        match src[i]? with
        | some l => out.set i (field l)
        | none => out)
      (List.replicate src.length "") =
      (src.map field).take k ++ List.replicate (src.length - k) "" := by
  induction k with
  | zero => simp
  | succ k ih =>
    have hlt : k < src.length := hk
    rw [List.range_succ, List.foldl_append, ih (Nat.le_of_lt hlt)]
    simp only [List.foldl_cons, List.foldl_nil, List.getElem?_eq_getElem hlt]
    have hlen : ((src.map field).take k).length = k := by
      simp [Nat.min_eq_left (Nat.le_of_lt hlt)]
    rw [List.set_append_right _ _ (by omega), hlen, Nat.sub_self, List.take_succ,
      List.getElem?_map, List.getElem?_eq_getElem hlt]
    have hrep : List.replicate (src.length - k) "" =
        "" :: List.replicate (src.length - (k + 1)) "" := by
      rw [← List.replicate_succ]
      congr 1
      omega
    rw [hrep]
    simp

theorem fillByIndex_eq_map (src : List SupportedLanguage) (field : SupportedLanguage → String) :
    fillByIndex src field = src.map field := by
  unfold fillByIndex
  rw [foldl_fill_upto src field src.length (Nat.le_refl _)]
  simp

/-- C11: `Langs` and `CountryCodes` have the length of the entry list, and at
every index they hold the friendly name and the code of the entry at that
index (original order, positionally aligned). -/
theorem Langs_CountryCodes_aligned (toLower : String → String) (L : List SupportedLanguage) :
    (NewSupportedLanguagesCollection toLower L).Langs.length = L.length ∧
    (NewSupportedLanguagesCollection toLower L).CountryCodes.length = L.length ∧
    (∀ (i : Nat) (e : SupportedLanguage), L[i]? = some e →
      (NewSupportedLanguagesCollection toLower L).Langs[i]? = some e.FriendlyName ∧
      (NewSupportedLanguagesCollection toLower L).CountryCodes[i]? = some e.countryCode) := by
  unfold SupportedLanguagesCollection.Langs SupportedLanguagesCollection.CountryCodes
    NewSupportedLanguagesCollection
  simp only [fillByIndex_eq_map]
  refine ⟨by simp, by simp, ?_⟩
  intro i e he
  simp [List.getElem?_map, he]

theorem Langs_CountryCodes_aligned_witness :
    AppSupportedLanguages.Langs[3]? = some "Deutsch" ∧
    AppSupportedLanguages.CountryCodes[3]? = some "de" :=
  (Langs_CountryCodes_aligned ToLower SupportedLanguages).2.2 3 ⟨"de", "Deutsch"⟩ (by decide)

/-- C17: a collection returned by the constructor has selected index `-1`,
for every entry list, the empty one included. -/
theorem SelectedIndex_New (toLower : String → String) (L : List SupportedLanguage) :
    (NewSupportedLanguagesCollection toLower L).SelectedIndex = -1 ∧
    (NewSupportedLanguagesCollection toLower []).SelectedIndex = -1 :=
  ⟨rfl, rfl⟩

/-- C13 fails as stated: for `ClueDirectionNone` the arrow is the word "none",
which is not a blank placeholder. -/
theorem Arrow_none_not_blank :
    ClueDirection.Arrow ClueDirectionNone = "none" ∧
    ¬ (isBlank (ClueDirection.Arrow ClueDirectionNone) = true) := by
  decide

/-- C13 (amended): `Arrow` is "→" for right, "↓" for down, "←" for left and "↑"
for up; for `ClueDirectionNone`, and for every other value that is not a
cardinal constant, it is the placeholder word "none", which contains no arrow
glyph. -/
theorem Arrow_values :
    ClueDirection.Arrow ClueDirectionRight = "→" ∧
    ClueDirection.Arrow ClueDirectionDown = "↓" ∧
    ClueDirection.Arrow ClueDirectionLeft = "←" ∧
    ClueDirection.Arrow ClueDirectionUp = "↑" ∧
    ClueDirection.Arrow ClueDirectionNone = "none" ∧
    (∀ cd : ClueDirection, cd ≠ ClueDirectionRight → cd ≠ ClueDirectionDown →
      cd ≠ ClueDirectionLeft → cd ≠ ClueDirectionUp → ClueDirection.Arrow cd = "none") ∧
    (∀ c, c ∈ "none".data → c ∉ arrowGlyphs) := by
  refine ⟨by decide, by decide, by decide, by decide, by decide, ?_, by decide⟩
  intro cd h1 h2 h3 h4
  simp [ClueDirection.Arrow, h1, h2, h3, h4]

/-- C14: `String` is "right", "down", "left", "up" and "none" on the five
constants, these five names are pairwise distinct, and every value that is not
one of the four cardinal constants gives "none". -/
theorem String_names :
    ClueDirection.String ClueDirectionRight = "right" ∧
    ClueDirection.String ClueDirectionDown = "down" ∧
    ClueDirection.String ClueDirectionLeft = "left" ∧
    ClueDirection.String ClueDirectionUp = "up" ∧
    ClueDirection.String ClueDirectionNone = "none" ∧
    List.Pairwise (fun a b => a ≠ b)
      [ClueDirection.String ClueDirectionRight, ClueDirection.String ClueDirectionDown,
        ClueDirection.String ClueDirectionLeft, ClueDirection.String ClueDirectionUp,
        ClueDirection.String ClueDirectionNone] ∧
    (∀ cd : ClueDirection, cd ≠ ClueDirectionRight → cd ≠ ClueDirectionDown →
      cd ≠ ClueDirectionLeft → cd ≠ ClueDirectionUp → ClueDirection.String cd = "none") := by
  refine ⟨by decide, by decide, by decide, by decide, by decide, by decide, ?_⟩
  intro cd h1 h2 h3 h4
  simp [ClueDirection.String, h1, h2, h3, h4]

/-! ## Clue names of a cell -/

theorem foldl_append_names {Id : Type} (f : Id → String) (clues : List Id) (acc : List String) :
    clues.foldl (fun names clue => names ++ [f clue]) acc = acc ++ clues.map f := by
  induction clues generalizing acc with
  | nil => simp
  | cons c t ih => simp [ih]

/-- C15: `GetClueNames` is a total function; it is empty when the index has no
row for `X` or the row has no entry for `Y`, and otherwise lists, in the stored
order, the display name of each identifier of the cell, the empty string for
an identifier without a display name. -/
theorem GetClueNames_spec {Id : Type} [DecidableEq Id] (idx : ClueIndex Id) (p : MapPosition) :
    (idx.CluesPosMap.get p.X = none → p.GetClueNames idx = []) ∧
    (∀ row, idx.CluesPosMap.get p.X = some row → row.get p.Y = none →
      p.GetClueNames idx = []) ∧
    (∀ row clues, idx.CluesPosMap.get p.X = some row → row.get p.Y = some clues →
      p.GetClueNames idx = clues.map (fun clue => (idx.ClueNamesMap.get clue).getD "") ∧
      (p.GetClueNames idx).length = clues.length ∧
      ∀ (i : Nat) (clue : Id), clues[i]? = some clue →
        (p.GetClueNames idx)[i]? =
          some (match idx.ClueNamesMap.get clue with
            | some name => name
            | none => "")) := by
  refine ⟨?_, ?_, ?_⟩
  · intro h
    simp [MapPosition.GetClueNames, h]
  · intro row h1 h2
    simp [MapPosition.GetClueNames, h1, h2]
  · intro row clues h1 h2
    have h : p.GetClueNames idx =
        clues.map (fun clue => (idx.ClueNamesMap.get clue).getD "") := by
      simp [MapPosition.GetClueNames, h1, h2, foldl_append_names]
    refine ⟨h, by simp [h], ?_⟩
    intro i clue hi
    rw [h, List.getElem?_map, hi]
    cases hg : idx.ClueNamesMap.get clue <;> simp [hg]

theorem GetClueNames_spec_witness :
    (MapPosition.mk 7 0).GetClueNames sampleIndex = ["Bronze Key", "Ancient Urn"] ∧
    (MapPosition.mk 7 1).GetClueNames sampleIndex = [] ∧
    (MapPosition.mk 4 0).GetClueNames sampleIndex = [] :=
  ⟨((GetClueNames_spec sampleIndex ⟨7, 0⟩).2.2 ⟨[(0, [1, 2])]⟩ [1, 2] rfl rfl).1.trans
      (by decide),
   (GetClueNames_spec sampleIndex ⟨7, 1⟩).2.1 ⟨[(0, [1, 2])]⟩ rfl rfl,
   (GetClueNames_spec sampleIndex ⟨4, 0⟩).1 rfl⟩

/-! ## Duplicates and uniqueness in the entry list -/

theorem reverse_find?_last_index {α : Type} (q : α → Bool) (l : List α) (a : α)
    (h : l.reverse.find? q = some a) :
    ∃ i : Nat, l[i]? = some a ∧ q a = true ∧
      ∀ j : Nat, i < j → ∀ c, l[j]? = some c → q c = false := by
  obtain ⟨r, hr, hq, hlt⟩ := find?_eq_some_index q l.reverse a h
  have hrlt : r < l.length := by
    have := (List.getElem?_eq_some_iff.1 hr).1
    simpa using this
  refine ⟨l.length - 1 - r, ?_, hq, ?_⟩
  · rw [← List.getElem?_reverse hrlt]
    exact hr
  · intro j hj c hc
    have hjlt : j < l.length := (List.getElem?_eq_some_iff.1 hc).1
    refine hlt (l.length - 1 - j) (by omega) c ?_
    rw [List.getElem?_reverse (by omega)]
    have : l.length - 1 - (l.length - 1 - j) = j := by omega
    rw [this]
    exact hc

theorem reverse_find?_of_mem {α : Type} (q : α → Bool) (l : List α) (e : α) (he : e ∈ l)
    (hq : q e = true) : ∃ a, l.reverse.find? q = some a := by
  rw [← Option.isSome_iff_exists, List.find?_isSome]
  exact ⟨e, List.mem_reverse.2 he, hq⟩

theorem reverse_find?_of_unique {α β : Type} [DecidableEq β] (f : α → β) (l : List α)
    (hnd : (l.map f).Nodup) (e : α) (he : e ∈ l) :
    l.reverse.find? (fun x => decide (f x = f e)) = some e := by
  obtain ⟨a, ha⟩ := reverse_find?_of_mem (fun x => decide (f x = f e)) l e he (by simp)
  have hmem : a ∈ l := List.mem_reverse.1 (List.mem_of_find?_eq_some ha)
  have hfa : f a = f e := by simpa using List.find?_some ha
  rw [ha, List.inj_on_of_nodup_map hnd hmem he hfa]

/-- C12: duplicates are last-wins. When some entry has the lowercased code
asked for, `Lang` is the friendly name of the last such entry of the list;
when some entry has the lowercased friendly name asked for, `CountryCode` is
the code of the last such entry. -/
theorem lookup_last_wins (toLower : String → String) (L : List SupportedLanguage) :
    (∀ c, (∃ e, e ∈ L ∧ toLower e.countryCode = toLower c) →
      ∃ (i : Nat) (e : SupportedLanguage), L[i]? = some e ∧
        toLower e.countryCode = toLower c ∧
        (∀ (j : Nat) (x : SupportedLanguage), i < j → L[j]? = some x →
          toLower x.countryCode ≠ toLower c) ∧
        (NewSupportedLanguagesCollection toLower L).Lang toLower c = e.FriendlyName) ∧
    (∀ n, (∃ e, e ∈ L ∧ toLower e.FriendlyName = toLower n) →
      ∃ (i : Nat) (e : SupportedLanguage), L[i]? = some e ∧
        toLower e.FriendlyName = toLower n ∧
        (∀ (j : Nat) (x : SupportedLanguage), i < j → L[j]? = some x →
          toLower x.FriendlyName ≠ toLower n) ∧
        (NewSupportedLanguagesCollection toLower L).CountryCode toLower n = e.countryCode) := by
  constructor
  · rintro c ⟨e, he, hec⟩
    obtain ⟨a, ha⟩ := reverse_find?_of_mem
      (fun x => decide (toLower x.countryCode = toLower c)) L e he (by simpa using hec)
    obtain ⟨i, hi, hq, hlast⟩ := reverse_find?_last_index _ L a ha
    refine ⟨i, a, hi, by simpa using hq, ?_, ?_⟩
    · intro j x hj hx
      simpa using hlast j hj x hx
    · rw [Lang_New, ha]
  · rintro n ⟨e, he, hen⟩
    obtain ⟨a, ha⟩ := reverse_find?_of_mem
      (fun x => decide (toLower x.FriendlyName = toLower n)) L e he (by simpa using hen)
    obtain ⟨i, hi, hq, hlast⟩ := reverse_find?_last_index _ L a ha
    refine ⟨i, a, hi, by simpa using hq, ?_, ?_⟩
    · intro j x hj hx
      simpa using hlast j hj x hx
    · rw [CountryCode_New, ha]

theorem lookup_last_wins_witness :
    (∃ (i : Nat) (e : SupportedLanguage), duplicateLanguages[i]? = some e ∧
      ToLower e.countryCode = ToLower "fr" ∧
      (∀ (j : Nat) (x : SupportedLanguage), i < j → duplicateLanguages[j]? = some x →
        ToLower x.countryCode ≠ ToLower "fr") ∧
      (NewSupportedLanguagesCollection ToLower duplicateLanguages).Lang ToLower "fr" =
        e.FriendlyName) ∧
    (NewSupportedLanguagesCollection ToLower duplicateLanguages).Lang ToLower "fr" = "French" ∧
    (NewSupportedLanguagesCollection ToLower duplicateLanguages).CountryCode ToLower "english" =
      "gb" :=
  ⟨(lookup_last_wins ToLower duplicateLanguages).1 "fr"
      ⟨⟨"fr", "Francais"⟩, by decide, by decide⟩,
   by decide, by decide⟩

/-- C18: round trip under uniqueness. When the lowercased codes of the entry
list are pairwise distinct and so are its lowercased friendly names, every
entry is found by its code and by its name, and both round trips return the
starting value. -/
theorem round_trip_of_unique (toLower : String → String) (L : List SupportedLanguage)
    (hcodes : (L.map (fun e => toLower e.countryCode)).Nodup)
    (hnames : (L.map (fun e => toLower e.FriendlyName)).Nodup)
    (e : SupportedLanguage) (he : e ∈ L) :
    (NewSupportedLanguagesCollection toLower L).Lang toLower e.countryCode = e.FriendlyName ∧
    (NewSupportedLanguagesCollection toLower L).CountryCode toLower e.FriendlyName =
      e.countryCode ∧
    (NewSupportedLanguagesCollection toLower L).CountryCode toLower
      ((NewSupportedLanguagesCollection toLower L).Lang toLower e.countryCode) = e.countryCode ∧
    (NewSupportedLanguagesCollection toLower L).Lang toLower
      ((NewSupportedLanguagesCollection toLower L).CountryCode toLower e.FriendlyName) =
      e.FriendlyName := by
  have h1 : (NewSupportedLanguagesCollection toLower L).Lang toLower e.countryCode =
      e.FriendlyName := by
    rw [Lang_New, reverse_find?_of_unique (fun x => toLower x.countryCode) L hcodes e he]
  have h2 : (NewSupportedLanguagesCollection toLower L).CountryCode toLower e.FriendlyName =
      e.countryCode := by
    rw [CountryCode_New, reverse_find?_of_unique (fun x => toLower x.FriendlyName) L hnames e he]
  exact ⟨h1, h2, by rw [h1, h2], by rw [h2, h1]⟩

theorem round_trip_of_unique_witness :
    AppSupportedLanguages.Lang ToLower "pt" = "Portugues" ∧
    AppSupportedLanguages.CountryCode ToLower "Portugues" = "pt" ∧
    AppSupportedLanguages.CountryCode ToLower (AppSupportedLanguages.Lang ToLower "pt") = "pt" ∧
    AppSupportedLanguages.Lang ToLower (AppSupportedLanguages.CountryCode ToLower "Portugues") =
      "Portugues" :=
  round_trip_of_unique ToLower SupportedLanguages (by decide) (by decide) ⟨"pt", "Portugues"⟩
    (by decide)

/-! ## Scan depth -/

theorem directedMapPositions_of_limit_lt_one (start : MapPosition) (dir : ClueDirection)
    (limit : Int) (h : limit < 1) : directedMapPositions start dir limit = [] := by
  unfold directedMapPositions
  rw [if_pos h]

theorem directedMapPositions_of_not_cardinal (start : MapPosition) (dir : ClueDirection)
    (limit : Int) (h1 : dir ≠ ClueDirectionRight) (h2 : dir ≠ ClueDirectionDown)
    (h3 : dir ≠ ClueDirectionLeft) (h4 : dir ≠ ClueDirectionUp) :
    directedMapPositions start dir limit = [] := by
  unfold directedMapPositions
  simp [h1, h2, h3, h4]

theorem rayLoop_initial (cell : Int → MapPosition) (L L' : Int) (h : L ≤ L') :
    List.IsPrefix (rayLoop cell L) (rayLoop cell L') := by
  obtain ⟨k, hk⟩ := Nat.exists_eq_add_of_le (Int.toNat_le_toNat h)
  unfold rayLoop
  rw [hk, List.range_add, List.map_append]
  exact List.prefix_append _ _

theorem directedMapPositions_initial (start : MapPosition) (dir : ClueDirection) (L L' : Int)
    (h : L ≤ L') :
    List.IsPrefix (directedMapPositions start dir L) (directedMapPositions start dir L') := by
  by_cases hL : L < 1
  · rw [directedMapPositions_of_limit_lt_one start dir L hL]
    exact List.nil_prefix
  · have hL' : ¬ L' < 1 := by omega
    unfold directedMapPositions
    rw [if_neg hL, if_neg hL']
    split_ifs
    · exact rayLoop_initial _ L L' h
    · exact rayLoop_initial _ L L' h
    · exact rayLoop_initial _ L L' h
    · exact rayLoop_initial _ L L' h
    · exact List.nil_prefix

theorem rayLoop_congr (cell cell' : Int → MapPosition) (limit : Int)
    (h : ∀ j : Nat, j < limit.toNat → cell ((j : Int) + 1) = cell' ((j : Int) + 1)) :
    rayLoop cell limit = rayLoop cell' limit := by
  unfold rayLoop
  apply List.map_congr_left
  intro j hj
  exact h j (List.mem_range.1 hj)

theorem wrapInt_of_between (lo hi v : Int) (hlo : fitsInt lo) (hhi : fitsInt hi)
    (h1 : lo ≤ v) (h2 : v ≤ hi) : wrapInt v = v := by
  unfold fitsInt at hlo hhi
  unfold wrapInt
  omega

/-- Without overflow the 64-bit ray of depth 10 is the ray over unbounded
integers. -/
theorem machine_ray_of_noOverflow (m : MapPosition) (d : ClueDirection)
    (hd : d = ClueDirectionRight ∨ d = ClueDirectionDown ∨ d = ClueDirectionLeft ∨
      d = ClueDirectionUp)
    (hno : noOverflow m d) :
    Machine.directedMapPositions m d 10 = rayLoop (stepAlong m d) 10 := by
  have hstep : ∀ c : ClueDirection, stepAlong m c = fun i => stepAlong m c i := fun _ => rfl
  obtain ⟨hx, hy, hx10, hy10⟩ := hno
  have h10 : (10 : Int).toNat = 10 := rfl
  rcases hd with h | h | h | h <;> subst h <;> rw [hstep] <;>
    simp only [Machine.directedMapPositions, stepAlong, ClueDirectionRight, ClueDirectionDown,
      ClueDirectionLeft, ClueDirectionUp] at hx10 hy10 ⊢ <;>
    norm_num at hx10 hy10 ⊢ <;>
    apply rayLoop_congr <;> intro j hj <;> rw [h10] at hj
  · rw [wrapInt_of_between m.X (m.X + 10) _ hx hx10 (by omega) (by omega)]
  · rw [wrapInt_of_between m.Y (m.Y + 10) _ hy hy10 (by omega) (by omega)]
  · rw [wrapInt_of_between (m.X - 10) m.X _ hx10 hx (by omega) (by omega)]
  · rw [wrapInt_of_between (m.Y - 10) m.Y _ hy10 hy (by omega) (by omega)]

theorem machine_ray_length_ten (m : MapPosition) (d : ClueDirection)
    (hd : d = ClueDirectionRight ∨ d = ClueDirectionDown ∨ d = ClueDirectionLeft ∨
      d = ClueDirectionUp) :
    (Machine.directedMapPositions m d 10).length = 10 := by
  rcases hd with h | h | h | h <;> subst h <;>
    simp [Machine.directedMapPositions, length_rayLoop, ClueDirectionRight, ClueDirectionDown,
      ClueDirectionLeft, ClueDirectionUp]

theorem machine_get_getClueResultSet {Id : Type} [DecidableEq Id] (idx : ClueIndex Id)
    (start : MapPosition) (dir : ClueDirection) (limit : Int) (k : String) :
    (Machine.getClueResultSet idx start dir limit).get k =
      (Machine.directedMapPositions start dir limit).find?
        (fun c => decide (k ∈ c.GetClueNames idx)) := by
  unfold Machine.getClueResultSet
  rw [get_foldl_recordCell, GoMap.get_empty]

/-- C16 fails as stated at the edge of the 64-bit integers: scanning right
from the cell with the greatest `X`, the first cell read is the one with the
least `X`; a clue there is recorded although that cell is none of the cells 1
to 10 steps to the right of the start, no such cell carries the clue, and its
distance from the start is far above 10. -/
theorem default_depth_ten_overflow :
    (Machine.FindNextClue edgeIndex ⟨9223372036854775807, 0⟩ ClueDirectionRight).get
        "Bronze Key" = some ⟨-9223372036854775808, 0⟩ ∧
    (∀ i : Nat, 1 ≤ i → i ≤ 10 →
      (MapPosition.mk (-9223372036854775808) 0) ≠
        stepAlong ⟨9223372036854775807, 0⟩ ClueDirectionRight i) ∧
    (∀ i : Nat, 1 ≤ i → i ≤ 10 →
      "Bronze Key" ∉
        (stepAlong ⟨9223372036854775807, 0⟩ ClueDirectionRight i).GetClueNames edgeIndex) ∧
    11 ≤ chebyshev ⟨9223372036854775807, 0⟩ ⟨-9223372036854775808, 0⟩ := by
  refine ⟨by decide, ?_, ?_, ?_⟩
  · intro i h1 h10
    interval_cases i <;> decide
  · intro i h1 h10
    interval_cases i <;> decide
  · norm_num [chebyshev]

/-- C16 (amended): the default depth is 10. `FindNextClue` and
`DirectedMapPositionsSet` are the scan and the ray with limit 10, and for a
cardinal direction the default ray has exactly 10 cells. When the ten steps
from the start along the direction do not overflow a 64-bit `int`, every
position recorded by `FindNextClue` is the start moved between 1 and 10 steps
along the direction, and a name found on none of these 10 cells (for instance
one occurring only at distance 11 or more) is not recorded. -/
theorem default_depth_ten {Id : Type} [DecidableEq Id] (idx : ClueIndex Id) (m : MapPosition)
    (d : ClueDirection) :
    Machine.FindNextClue idx m d = Machine.getClueResultSet idx m d 10 ∧
    Machine.DirectedMapPositionsSet m d = Machine.directedMapPositions m d 10 ∧
    ((d = ClueDirectionRight ∨ d = ClueDirectionDown ∨ d = ClueDirectionLeft ∨
        d = ClueDirectionUp) →
      (Machine.DirectedMapPositionsSet m d).length = 10 ∧
      (noOverflow m d →
        (∀ name p, (Machine.FindNextClue idx m d).get name = some p →
          ∃ i : Nat, 1 ≤ i ∧ i ≤ 10 ∧ p = stepAlong m d i ∧ chebyshev m p = i ∧
            name ∈ p.GetClueNames idx) ∧
        (∀ name, (∀ i : Nat, 1 ≤ i → i ≤ 10 → name ∉ (stepAlong m d i).GetClueNames idx) →
          (Machine.FindNextClue idx m d).get name = none))) := by
  refine ⟨rfl, rfl, ?_⟩
  intro hd
  refine ⟨machine_ray_length_ten m d hd, ?_⟩
  intro hno
  have hray := machine_ray_of_noOverflow m d hd hno
  unfold Machine.FindNextClue
  refine ⟨?_, ?_⟩
  · intro name p hp
    rw [machine_get_getClueResultSet, hray] at hp
    have hq := List.find?_some hp
    obtain ⟨j, hj, hjp⟩ := (mem_rayLoop _ _ _).1 (List.mem_of_find?_eq_some hp)
    have hj10 : j < 10 := hj
    refine ⟨j + 1, by omega, by omega, ?_, ?_, by simpa using hq⟩
    · rw [← hjp]
      simp
    · rw [← hjp, chebyshev_stepAlong, abs_of_nonneg (by omega)]
      simp
  · intro name hnone
    rw [machine_get_getClueResultSet, hray, List.find?_eq_none]
    intro c hc
    obtain ⟨j, hj, hjc⟩ := (mem_rayLoop _ _ _).1 hc
    have hj10 : j < 10 := hj
    have := hnone (j + 1) (by omega) (by omega)
    rw [← hjc]
    simpa using this

theorem default_depth_ten_witness :
    noOverflow ⟨-4, 0⟩ ClueDirectionRight ∧
    "Ancient Urn" ∈ (stepAlong ⟨-4, 0⟩ ClueDirectionRight 11).GetClueNames sampleIndex ∧
    (Machine.FindNextClue sampleIndex ⟨-4, 0⟩ ClueDirectionRight).get "Ancient Urn" = none ∧
    (Machine.FindNextClue sampleIndex ⟨-4, 0⟩ ClueDirectionRight).get "Bronze Key" =
      some ⟨3, 0⟩ ∧
    (Machine.DirectedMapPositionsSet ⟨-4, 0⟩ ClueDirectionRight).length = 10 := by
  have hno : noOverflow ⟨-4, 0⟩ ClueDirectionRight := by
    unfold noOverflow fitsInt
    decide
  have h := (default_depth_ten sampleIndex ⟨-4, 0⟩ ClueDirectionRight).2.2 (Or.inl rfl)
  refine ⟨hno, by decide, (h.2 hno).2 "Ancient Urn" ?_, by decide, h.1⟩
  intro i h1 h10
  interval_cases i <;> decide

/-- C19: the scan is monotone in the limit. For limits `L ≤ L'` the ray of
depth `L` is a prefix of the ray of depth `L'`, and every name recorded at
depth `L` is recorded at depth `L'` with the same position. -/
theorem scan_monotone {Id : Type} [DecidableEq Id] (idx : ClueIndex Id) (start : MapPosition)
    (dir : ClueDirection) (L L' : Int) (h : L ≤ L') :
    List.IsPrefix (directedMapPositions start dir L) (directedMapPositions start dir L') ∧
    (∀ name p, (getClueResultSet idx start dir L).get name = some p →
      (getClueResultSet idx start dir L').get name = some p) := by
  have hpre := directedMapPositions_initial start dir L L' h
  refine ⟨hpre, ?_⟩
  intro name p hp
  obtain ⟨t, ht⟩ := hpre
  rw [get_getClueResultSet] at hp ⊢
  rw [← ht, List.find?_append, hp]
  rfl

theorem scan_monotone_witness :
    List.IsPrefix (directedMapPositions ⟨0, 0⟩ ClueDirectionRight 5)
      (directedMapPositions ⟨0, 0⟩ ClueDirectionRight 10) ∧
    (getClueResultSet sampleIndex ⟨0, 0⟩ ClueDirectionRight 5).get "Bronze Key" = some ⟨3, 0⟩ ∧
    (getClueResultSet sampleIndex ⟨0, 0⟩ ClueDirectionRight 10).get "Bronze Key" =
      some ⟨3, 0⟩ :=
  ⟨(scan_monotone sampleIndex ⟨0, 0⟩ ClueDirectionRight 5 10 (by decide)).1,
   by decide,
   (scan_monotone sampleIndex ⟨0, 0⟩ ClueDirectionRight 5 10 (by decide)).2 "Bronze Key"
     ⟨3, 0⟩ (by decide)⟩

/-- C20: the scan result is the empty result set when the limit is at most 0
or the direction is `ClueDirectionNone` or any other non-cardinal value; then
`Pois` is empty and `Pos` fails for every name. In particular `FindNextClue`
with `ClueDirectionNone` is empty. -/
theorem getClueResultSet_empty {Id : Type} [DecidableEq Id] (idx : ClueIndex Id)
    (start : MapPosition) (dir : ClueDirection) (limit : Int)
    (h : limit ≤ 0 ∨ dir = ClueDirectionNone ∨
      (dir ≠ ClueDirectionRight ∧ dir ≠ ClueDirectionDown ∧ dir ≠ ClueDirectionLeft ∧
        dir ≠ ClueDirectionUp)) :
    getClueResultSet idx start dir limit = GoMap.empty ∧
    (getClueResultSet idx start dir limit).keys = [] ∧
    (getClueResultSet idx start dir limit).Pois = [] ∧
    (∀ p, ∃ e, (getClueResultSet idx start dir limit).Pos p = Except.error e) ∧
    start.FindNextClue idx ClueDirectionNone = GoMap.empty := by
  have hnone : ∀ l : Int, directedMapPositions start ClueDirectionNone l = [] :=
    fun l => directedMapPositions_of_not_cardinal start ClueDirectionNone l
      (by decide) (by decide) (by decide) (by decide)
  have hnil : directedMapPositions start dir limit = [] := by
    rcases h with h | h | ⟨h1, h2, h3, h4⟩
    · exact directedMapPositions_of_limit_lt_one start dir limit (by omega)
    · rw [h]
      exact hnone limit
    · exact directedMapPositions_of_not_cardinal start dir limit h1 h2 h3 h4
  have hempty : getClueResultSet idx start dir limit = GoMap.empty := by
    unfold getClueResultSet
    rw [hnil]
    rfl
  refine ⟨hempty, ?_, ?_, ?_, ?_⟩
  · rw [hempty]
    rfl
  · rw [hempty]
    rfl
  · intro p
    rw [hempty]
    exact ⟨_, rfl⟩
  · unfold MapPosition.FindNextClue getClueResultSet
    rw [hnone 10]
    rfl

theorem getClueResultSet_empty_witness :
    getClueResultSet sampleIndex ⟨0, 0⟩ ClueDirectionNone 10 = GoMap.empty ∧
    getClueResultSet sampleIndex ⟨0, 0⟩ ClueDirectionRight 0 = GoMap.empty ∧
    getClueResultSet sampleIndex ⟨0, 0⟩ 9 10 = GoMap.empty ∧
    (getClueResultSet sampleIndex ⟨0, 0⟩ ClueDirectionRight 10).Pois =
      ["Ancient Urn", "Bronze Key"] :=
  ⟨(getClueResultSet_empty sampleIndex ⟨0, 0⟩ ClueDirectionNone 10 (Or.inr (Or.inl rfl))).1,
   (getClueResultSet_empty sampleIndex ⟨0, 0⟩ ClueDirectionRight 0 (Or.inl (by decide))).1,
   (getClueResultSet_empty sampleIndex ⟨0, 0⟩ 9 10 (Or.inr (Or.inr (by decide)))).1,
   by decide⟩

end Dofushunt
